import Mathlib

/-!
# Legal-Ease backend: query-relevance ranking and advocate lookup

A shallow embedding of `findMatchingCases` and `getAdvocateById` from `src/server.js`,
followed by the properties of the ranking engine that the specification states.

Modelling conventions.

* A JavaScript string is the list of its characters (`JSString`).  The texts that the
  engine compares are built from ASCII word characters, so code units and code points
  coincide on everything that survives the punctuation strip.
* `legalCasesData`, a module-level variable in the source, is an explicit argument.
* A `forEach` loop that updates the local `score` is a left fold over the array.
* Numbers are integers: the score is a sum of increments 10, 5 and 2 and stays far
  below 2^53, where JavaScript numbers are exact.
-/

namespace LegalEase

/-! ## Strings -/

/-- A JavaScript string as the sequence of its characters. -/
abbrev JSString := List Char

/-- One character of `String.prototype.toLowerCase`: the letters `A`..`Z` go to `a`..`z`.
Characters outside the ASCII range are left as they are. -/
def toLowerChar (c : Char) : Char :=
  if 65 ≤ c.toNat ∧ c.toNat ≤ 90 then Char.ofNat (c.toNat + 32) else c

/-- The method `String.prototype.toLowerCase`, character by character. -/
def toLowerCase (s : JSString) : JSString :=
  s.map toLowerChar

/-- The regular-expression class `\w`: `[A-Za-z0-9_]`. -/
def isWordChar (c : Char) : Bool :=
  (65 ≤ c.toNat && c.toNat ≤ 90) || (97 ≤ c.toNat && c.toNat ≤ 122) ||
    (48 ≤ c.toNat && c.toNat ≤ 57) || c.toNat == 95

/-- The regular-expression class `\s`: the ECMAScript white space and line terminator
code points (tab, LF, VT, FF, CR, space, NBSP, U+1680, U+2000..U+200A, U+2028, U+2029,
U+202F, U+205F, U+3000, U+FEFF). -/
def isWhiteSpace (c : Char) : Bool :=
  (9 ≤ c.toNat && c.toNat ≤ 13) || c.toNat == 32 || c.toNat == 160 || c.toNat == 5760 ||
    (8192 ≤ c.toNat && c.toNat ≤ 8202) || c.toNat == 8232 || c.toNat == 8233 ||
    c.toNat == 8239 || c.toNat == 8287 || c.toNat == 12288 || c.toNat == 65279

/-- The call `.replace(/[^\w\s]/g, '')`: every character that is neither in `\w` nor in
`\s` is deleted. -/
def stripPunctuation (s : JSString) : JSString :=
  s.filter (fun c => isWordChar c || isWhiteSpace c)

/-- Worker of `splitWhitespace`: `cur` is the piece being read, most recent character
first.  A maximal run of white space ends the piece; the last character of the run is the
one that emits it. -/
def splitGo : JSString → JSString → List JSString
  | [], cur => [cur.reverse]
  | c :: cs, cur =>
    if isWhiteSpace c then
      match cs with
      | [] => [cur.reverse, []]
      | d :: _ => if isWhiteSpace d then splitGo cs cur else cur.reverse :: splitGo cs []
    else splitGo cs (c :: cur)

/-- The call `.split(/\s+/)`: the pieces between maximal runs of white space.  A string
that starts (ends) with white space has an empty first (last) piece, and the empty string
gives one empty piece. -/
def splitWhitespace (s : JSString) : List JSString :=
  splitGo s []

/-- The method `String.prototype.includes`: `t` occurs in `s` as a contiguous substring.
The empty string occurs in every string. -/
def includes (s t : JSString) : Bool :=
  s.tails.any (fun u => t.isPrefixOf u)

/-! ## Data model -/

/-- The `simulated_law` object of a case; only `explanation` is read by the engine. -/
structure SimulatedLaw where
  explanation : JSString
  deriving DecidableEq, Repr

/-- One element of `legalCasesData.cases`. -/
structure LegalCase where
  id : Int
  problem_statement : JSString
  keywords : List JSString
  simulated_law : SimulatedLaw
  advocate_id : JSString
  deriving DecidableEq, Repr

/-- One element of `legalCasesData.advocates`. -/
structure Advocate where
  id : JSString
  name : JSString
  specialization : JSString
  deriving DecidableEq, Repr

/-- The parsed `legal-cases.json` document. -/
structure LegalCasesData where
  cases : List LegalCase
  advocates : List Advocate
  deriving DecidableEq, Repr

/-- The object `{ ...legalCase, relevanceScore: score }`. -/
structure ScoredCase where
  id : Int
  problem_statement : JSString
  keywords : List JSString
  simulated_law : SimulatedLaw
  advocate_id : JSString
  relevanceScore : Int
  deriving DecidableEq, Repr

/-- The case fields of a scored match, without `relevanceScore`. -/
def ScoredCase.toLegalCase (m : ScoredCase) : LegalCase :=
  { id := m.id, problem_statement := m.problem_statement, keywords := m.keywords,
    simulated_law := m.simulated_law, advocate_id := m.advocate_id }

/-- The spread `{ ...legalCase, relevanceScore: score }`. -/
def withScore (legalCase : LegalCase) (score : Int) : ScoredCase :=
  { id := legalCase.id, problem_statement := legalCase.problem_statement,
    keywords := legalCase.keywords, simulated_law := legalCase.simulated_law,
    advocate_id := legalCase.advocate_id, relevanceScore := score }

/-- A JavaScript value as far as the engine inspects it: its type and, for `!query`,
whether it is falsy. -/
inductive JSValue where
  | undefined
  | null
  | boolean (b : Bool)
  | number (n : Int)
  | string (s : JSString)
  | object
  deriving DecidableEq, Repr

/-- The test `!query`: `undefined`, `null`, `false`, `0` and `""` are falsy. -/
def JSValue.isFalsy : JSValue → Bool
  | .undefined => true
  | .null => true
  | .boolean b => !b
  | .number n => n == 0
  | .string s => s.isEmpty
  | .object => false

/-! ## The ranking engine (`findMatchingCases`) -/

/-- Lines 38-41: lower-case, strip punctuation, split on white space, keep the pieces
longer than two characters. -/
def searchTerms (query : JSString) : List JSString :=
  (splitWhitespace (stripPunctuation (toLowerCase query))).filter (fun term => term.length > 2)

/-- Lines 48-73: the body of the `map` callback up to the `return`, the value of `score`
for one case. -/
def scoreCase (searchTerms : List JSString) (legalCase : LegalCase) : Int :=
  let score : Int := 0
  let score := legalCase.keywords.foldl (fun score keyword =>
    searchTerms.foldl (fun score term =>
      if includes (toLowerCase keyword) term || includes term (toLowerCase keyword)
      then score + 10 else score) score) score
  let problemStatement := toLowerCase legalCase.problem_statement
  let score := searchTerms.foldl (fun score term =>
    if includes problemStatement term then score + 5 else score) score
  let lawExplanation := toLowerCase legalCase.simulated_law.explanation
  let score := searchTerms.foldl (fun score term =>
    if includes lawExplanation term then score + 2 else score) score
  score

/-- Insertion of `x` in front of a list that is already ordered: `x` goes before the first
element `y` it does not have to follow (`compareFn x y ≤ 0`). -/
def sortInsert {α : Type} (compareFn : α → α → Int) (x : α) : List α → List α
  | [] => [x]
  | y :: ys => if compareFn x y ≤ 0 then x :: y :: ys else y :: sortInsert compareFn x ys

/-- The method `Array.prototype.sort(compareFn)`.  ECMAScript requires the sort to be
stable, which fixes the result for a consistent comparator; it is computed here by
insertion from the right. -/
def sort {α : Type} (compareFn : α → α → Int) : List α → List α
  | [] => []
  | x :: xs => sortInsert compareFn x (sort compareFn xs)

/-- The function `findMatchingCases(query)` of `src/server.js`, with `legalCasesData` as
an argument. -/
def findMatchingCases (legalCasesData : LegalCasesData) (query : JSValue) : List ScoredCase :=
  match query with
  | .string q =>
    if (JSValue.string q).isFalsy then []
    else
      let searchTerms := searchTerms q
      if searchTerms.length = 0 then []
      else
        let casesWithScores := legalCasesData.cases.map (fun legalCase =>
          withScore legalCase (scoreCase searchTerms legalCase))
        ((sort (fun a b => b.relevanceScore - a.relevanceScore)
          (casesWithScores.filter (fun caseItem => caseItem.relevanceScore > 0))).take 5)
  | _ => []

/-! ## Advocate lookup (`getAdvocateById`) and the advocate-detail route -/

/-- The comparison `advocate.id === advocateId` for an advocate whose `id` is a string:
strict equality holds only for a string with the same characters. -/
def strictEqualsString (s : JSString) (v : JSValue) : Bool :=
  match v with
  | .string t => s == t
  | _ => false

/-- The function `getAdvocateById(advocateId)`: `Array.prototype.find` returns the first
element that satisfies the predicate, or `undefined` (here `none`). -/
def getAdvocateById (legalCasesData : LegalCasesData) (advocateId : JSValue) : Option Advocate :=
  legalCasesData.advocates.find? (fun advocate => strictEqualsString advocate.id advocateId)

/-- The response of `GET /api/advocates/:id`: the status code and, for status 200, the
advocate with `casesHandled` and `recentCases`. -/
structure AdvocateResponse where
  status : Nat
  advocate : Option Advocate
  casesHandled : Nat
  recentCases : List LegalCase
  deriving DecidableEq, Repr

/-- The handler of `GET /api/advocates/:id`; `advocateId` is the route parameter, a
string. -/
def advocateDetailRoute (legalCasesData : LegalCasesData) (advocateId : JSString) :
    AdvocateResponse :=
  match getAdvocateById legalCasesData (.string advocateId) with
  | none => { status := 404, advocate := none, casesHandled := 0, recentCases := [] }
  | some advocate =>
    let advocateCases := legalCasesData.cases.filter (fun c => c.advocate_id == advocateId)
    { status := 200, advocate := some advocate, casesHandled := advocateCases.length,
      recentCases := advocateCases.take 3 }

/-! ## Examples -/

/-- The case of the specification's worked example. -/
def depositCase : LegalCase :=
  { id := 1
    problem_statement := "landlord kept my security deposit".toList
    keywords := ["security deposit".toList]
    simulated_law := { explanation := "deposits must be returned".toList }
    advocate_id := "adv_001".toList }

/-! ## The score as a count of matches -/

/-- The keyword test of line 53 for one (keyword, term) pair. -/
def keywordMatch (keyword term : JSString) : Bool :=
  includes (toLowerCase keyword) term || includes term (toLowerCase keyword)

/-- Number of pairs (keyword, term) of the cross-product of the case's keywords and the
terms for which the lower-cased keyword contains the term or the term contains the
lower-cased keyword. -/
def keywordPairCount (terms : List JSString) (c : LegalCase) : Nat :=
  (c.keywords ×ˢ terms).countP (fun p => keywordMatch p.1 p.2)

/-- Number of terms contained in the lower-cased problem statement. -/
def problemTermCount (terms : List JSString) (c : LegalCase) : Nat :=
  terms.countP (fun term => includes (toLowerCase c.problem_statement) term)

/-- Number of terms contained in the lower-cased law explanation. -/
def lawTermCount (terms : List JSString) (c : LegalCase) : Nat :=
  terms.countP (fun term => includes (toLowerCase c.simulated_law.explanation) term)

/-- The score as the specification words it: 10 per matching (keyword, term) pair, 5 per
term found in the problem statement, 2 per term found in the law explanation. -/
def specScore (terms : List JSString) (c : LegalCase) : Int :=
  10 * (keywordPairCount terms c : Int) + 5 * (problemTermCount terms c : Int) +
    2 * (lawTermCount terms c : Int)

/-- The term sequence `findMatchingCases` works with for a query value: `searchTerms` of a
string, and no term for a value that the guard of line 34 rejects. -/
def queryTerms : JSValue → List JSString
  | .string q => searchTerms q
  | _ => []

/-- A small case record for the examples: one keyword, a problem statement and a law
explanation. -/
def mkCase (id : Int) (keyword problem law : String) : LegalCase :=
  { id := id
    problem_statement := problem.toList
    keywords := [keyword.toList]
    simulated_law := { explanation := law.toList }
    advocate_id := "adv_001".toList }

/-- A corpus of nine cases; for the query "tax law" their scores are
10, 10, 5, 20, 2, 10, 10, 0, 10. -/
def sampleData : LegalCasesData :=
  { cases :=
      [mkCase 1 "tax" "" "", mkCase 2 "law" "" "", mkCase 3 "zzz" "tax" "",
       mkCase 4 "tax law" "" "", mkCase 5 "qqq" "" "law", mkCase 6 "tax" "" "",
       mkCase 7 "tax" "" "", mkCase 8 "none" "" "", mkCase 9 "law" "" ""]
    advocates :=
      [{ id := "adv_001".toList, name := "Ada".toList, specialization := "Tax".toList },
       { id := "adv_002".toList, name := "Bo".toList, specialization := "Tenancy".toList }] }

/-- The characters a search term can be made of: `a`..`z`, `0`..`9` and `_`, the
members of `\w` that are not upper-case letters. -/
def isTermChar (c : Char) : Bool :=
  (97 ≤ c.toNat && c.toNat ≤ 122) || (48 ≤ c.toNat && c.toNat ≤ 57) || c.toNat == 95

/-- A letter or digit of the ASCII range: `\w` without the underscore. -/
def isAlphanumeric (c : Char) : Bool :=
  (65 ≤ c.toNat && c.toNat ≤ 90) || (97 ≤ c.toNat && c.toNat ≤ 122) ||
    (48 ≤ c.toNat && c.toNat ≤ 57)

/-- Order of two matches annotated with their corpus positions: the higher score first
and, for equal scores, the smaller position first. -/
def precedes (a b : Nat × ScoredCase) : Prop :=
  b.2.relevanceScore < a.2.relevanceScore ∨
    (a.2.relevanceScore = b.2.relevanceScore ∧ a.1 < b.1)

/-- A loop that adds `w` for every element satisfying `p` adds `w` times their number. -/
theorem foldl_add_eq_countP {α : Type} (p : α → Bool) (w : Int) (l : List α) (s : Int) :
    l.foldl (fun score x => if p x then score + w else score) s = s + w * (l.countP p : Int) := by
  induction l generalizing s with
  | nil => simp
  | cons x xs ih =>
    rw [List.foldl_cons, ih, List.countP_cons]
    by_cases h : p x = true
    · simp only [h, if_true]; push_cast; ring
    · simp only [h]; simp

/-- The nested keyword loop adds 10 for every matching pair of the cross-product. -/
theorem foldl_keywords_eq (terms : List JSString) (kws : List JSString) (s : Int) :
    kws.foldl (fun score keyword =>
      terms.foldl (fun score term =>
        if includes (toLowerCase keyword) term || includes term (toLowerCase keyword)
        then score + 10 else score) score) s
      = s + 10 * ((kws ×ˢ terms).countP (fun p => keywordMatch p.1 p.2) : Int) := by
  induction kws generalizing s with
  | nil => simp
  | cons k ks ih =>
    rw [List.foldl_cons, ih, List.product_cons, List.countP_append, List.countP_map]
    have h := foldl_add_eq_countP (fun term => keywordMatch k term) 10 terms s
    simp only [keywordMatch] at h
    rw [h]
    have hc : List.countP ((fun p : JSString × JSString => keywordMatch p.1 p.2) ∘ fun b => (k, b)) terms
        = List.countP (fun term => includes (toLowerCase k) term || includes term (toLowerCase k)) terms := by
      apply congrArg (fun f => List.countP f terms)
      funext t
      simp [keywordMatch]
    rw [hc]
    push_cast
    ring

/-- The score computed by the loops is the score of the specification. -/
theorem scoreCase_eq_specScore (terms : List JSString) (c : LegalCase) :
    scoreCase terms c = specScore terms c := by
  unfold scoreCase specScore keywordPairCount problemTermCount lawTermCount
  simp only []
  rw [foldl_add_eq_countP, foldl_add_eq_countP, foldl_keywords_eq]
  ring

/-- C1. The relevance score of a case equals 10 times the number of matching
(keyword, term) pairs of the full cross-product, plus 5 times the number of terms found in
the lower-cased problem statement, plus 2 times the number of terms found in the
lower-cased law explanation; it is non-negative, and it is 0 exactly when all three counts
are 0, that is when no signal matches. -/
theorem scoreCase_formula (terms : List JSString) (c : LegalCase) :
    scoreCase terms c
        = 10 * (keywordPairCount terms c : Int) + 5 * (problemTermCount terms c : Int)
          + 2 * (lawTermCount terms c : Int)
      ∧ 0 ≤ scoreCase terms c
      ∧ (scoreCase terms c = 0 ↔
          keywordPairCount terms c = 0 ∧ problemTermCount terms c = 0 ∧
            lawTermCount terms c = 0) := by
  have h := scoreCase_eq_specScore terms c
  unfold specScore at h
  refine ⟨h, ?_, ?_⟩
  · rw [h]; positivity
  · rw [h]; constructor
    · intro h0; omega
    · rintro ⟨h1, h2, h3⟩; simp [h1, h2, h3]

/-- C1, worked example: the deposit case scores 20 + 15 + 2 = 37 for the query
"landlord security deposit". -/
theorem scoreCase_formula_witness :
    searchTerms "landlord security deposit".toList
        = ["landlord".toList, "security".toList, "deposit".toList]
      ∧ keywordPairCount (searchTerms "landlord security deposit".toList) depositCase = 2
      ∧ problemTermCount (searchTerms "landlord security deposit".toList) depositCase = 3
      ∧ lawTermCount (searchTerms "landlord security deposit".toList) depositCase = 1
      ∧ scoreCase (searchTerms "landlord security deposit".toList) depositCase = 37 := by
  have h := (scoreCase_formula (searchTerms "landlord security deposit".toList) depositCase).1
  refine ⟨by decide, by decide, by decide, by decide, ?_⟩
  rw [h]
  decide

/-! ## The stable sort -/

theorem sortInsert_perm {α : Type} (cmp : α → α → Int) (x : α) (l : List α) :
    (sortInsert cmp x l).Perm (x :: l) := by
  induction l with
  | nil => exact List.Perm.refl _
  | cons y ys ih =>
    unfold sortInsert
    split
    · exact List.Perm.refl _
    · exact (List.Perm.cons y ih).trans (List.Perm.swap x y ys)

theorem sort_perm {α : Type} (cmp : α → α → Int) (l : List α) : (sort cmp l).Perm l := by
  induction l with
  | nil => exact List.Perm.refl _
  | cons x xs ih =>
    unfold sort
    exact (sortInsert_perm cmp x _).trans (List.Perm.cons x ih)

theorem sortInsert_map {α β : Type} (f : β → α) (cmp : α → α → Int) (x : β) (l : List β) :
    (sortInsert (fun a b => cmp (f a) (f b)) x l).map f = sortInsert cmp (f x) (l.map f) := by
  induction l with
  | nil => rfl
  | cons y ys ih =>
    simp only [sortInsert, List.map_cons]
    split
    · rfl
    · rw [List.map_cons, ih]

/-- Sorting commutes with a projection through which the comparator factors. -/
theorem sort_map {α β : Type} (f : β → α) (cmp : α → α → Int) (l : List β) :
    (sort (fun a b => cmp (f a) (f b)) l).map f = sort cmp (l.map f) := by
  induction l with
  | nil => rfl
  | cons x xs ih =>
    simp only [sort, List.map_cons]
    rw [sortInsert_map, ih]

theorem sortInsert_precedes (x : Nat × ScoredCase) (l : List (Nat × ScoredCase))
    (hl : l.Pairwise precedes) (hx : ∀ y ∈ l, x.1 < y.1) :
    (sortInsert (fun a b => b.2.relevanceScore - a.2.relevanceScore) x l).Pairwise precedes := by
  induction l with
  | nil => simp [sortInsert]
  | cons y ys ih =>
    have hy := List.pairwise_cons.mp hl
    unfold sortInsert
    split
    · rename_i hle
      refine List.pairwise_cons.mpr ⟨?_, hl⟩
      intro z hz
      have hxz : x.1 < z.1 := hx z hz
      rcases List.mem_cons.mp hz with rfl | hz'
      · unfold precedes; omega
      · have := hy.1 z hz'
        unfold precedes at this ⊢; omega
    · rename_i hgt
      refine List.pairwise_cons.mpr ⟨?_, ih hy.2 (fun z hz => hx z (List.mem_cons_of_mem _ hz))⟩
      intro z hz
      have hz' := (sortInsert_perm _ x ys).subset hz
      rcases List.mem_cons.mp hz' with rfl | hz''
      · unfold precedes; omega
      · exact hy.1 z hz''

/-- Stability: sorting a list whose position annotations increase gives a list ordered by
score and, within one score, by position. -/
theorem sort_precedes (l : List (Nat × ScoredCase)) (h : l.Pairwise (fun a b => a.1 < b.1)) :
    (sort (fun a b => b.2.relevanceScore - a.2.relevanceScore) l).Pairwise precedes := by
  induction l with
  | nil => simp [sort]
  | cons x xs ih =>
    have hx := List.pairwise_cons.mp h
    unfold sort
    exact sortInsert_precedes x _ (ih hx.2) (fun y hy => hx.1 y ((sort_perm _ xs).subset hy))

/-- The filter-sort-truncate pipeline, with every match annotated by its position in the
array of scored cases. -/
theorem rank_annotated (cs : List ScoredCase) :
    ∃ P : List (Nat × ScoredCase),
      P.map Prod.snd
          = (sort (fun a b => b.relevanceScore - a.relevanceScore)
              (cs.filter (fun m => m.relevanceScore > 0))).take 5 ∧
      (∀ x ∈ P, cs[x.1]? = some x.2) ∧
      P.Pairwise precedes ∧
      (∀ i m, cs[i]? = some m → 0 < m.relevanceScore → (i, m) ∉ P →
        P.length = 5 ∧ ∀ x ∈ P, precedes x (i, m)) := by
  let F := cs.enum.filter (fun x => x.2.relevanceScore > 0)
  let S := sort (fun a b : Nat × ScoredCase => b.2.relevanceScore - a.2.relevanceScore) F
  have hF : F.Pairwise (fun a b => a.1 < b.1) := by
    have hE : cs.enum.Pairwise (fun a b => a.1 < b.1) := by
      have := List.pairwise_lt_range cs.length
      rw [← List.enum_map_fst cs, List.pairwise_map] at this
      exact this
    exact hE.sublist (List.filter_sublist _)
  have hS : S.Pairwise precedes := sort_precedes F hF
  have hmemS : ∀ x, x ∈ S ↔ x ∈ F := fun x => (sort_perm _ F).mem_iff
  refine ⟨S.take 5, ?_, ?_, ?_, ?_⟩
  · rw [List.map_take]
    have h1 := sort_map (Prod.snd : Nat × ScoredCase → ScoredCase)
      (fun a b => b.relevanceScore - a.relevanceScore) F
    have h2 : F.map Prod.snd = cs.filter (fun m => m.relevanceScore > 0) := by
      have h3 : List.filter (fun m : ScoredCase => decide (m.relevanceScore > 0))
          (List.map Prod.snd cs.enum) = _ := List.filter_map Prod.snd cs.enum
      rw [List.enum_map_snd] at h3
      rw [h3]; rfl
    rw [← h2, ← h1]
  · intro x hx
    have hxF := (hmemS x).mp (List.mem_of_mem_take hx)
    exact List.mem_enum_iff_getElem?.mp (List.mem_filter.mp hxF).1
  · exact hS.sublist (List.take_sublist 5 S)
  · intro i m him hpos hnot
    have hE : (i, m) ∈ cs.enum := List.mk_mem_enum_iff_getElem?.mpr him
    have hinF : (i, m) ∈ F := List.mem_filter.mpr ⟨hE, by simpa using hpos⟩
    have hinS : (i, m) ∈ S := (hmemS _).mpr hinF
    have hsplit : S.take 5 ++ S.drop 5 = S := List.take_append_drop 5 S
    have hdrop : (i, m) ∈ S.drop 5 := by
      rw [← hsplit] at hinS
      rcases List.mem_append.mp hinS with h | h
      · exact absurd h hnot
      · exact h
    have hlen : 5 < S.length := by
      have := List.length_pos_of_mem hdrop
      rw [List.length_drop] at this
      omega
    refine ⟨by rw [List.length_take]; omega, ?_⟩
    intro x hx
    rw [← hsplit] at hS
    exact (List.pairwise_append.mp hS).2.2 x hx (i, m) hdrop

/-! ## `findMatchingCases` as a pipeline over the query's terms -/

theorem scoreCase_nil (c : LegalCase) : scoreCase [] c = 0 := by
  rw [scoreCase_eq_specScore]
  simp [specScore, keywordPairCount, problemTermCount, lawTermCount]

theorem toLegalCase_withScore (c : LegalCase) (n : Int) : (withScore c n).toLegalCase = c := rfl

theorem relevanceScore_withScore (c : LegalCase) (n : Int) :
    (withScore c n).relevanceScore = n := rfl

/-- For every query value the result is the map-filter-sort-slice pipeline run with the
query's terms; when there is no term every score is 0 and the pipeline yields nothing, as
the two early returns do. -/
theorem findMatchingCases_eq (data : LegalCasesData) (query : JSValue) :
    findMatchingCases data query
      = (sort (fun a b => b.relevanceScore - a.relevanceScore)
          ((data.cases.map (fun c => withScore c (scoreCase (queryTerms query) c))).filter
            (fun m => m.relevanceScore > 0))).take 5 := by
  have hnil : ∀ terms : List JSString, terms = [] →
      (sort (fun a b : ScoredCase => b.relevanceScore - a.relevanceScore)
          ((data.cases.map (fun c => withScore c (scoreCase terms c))).filter
            (fun m => m.relevanceScore > 0))).take 5 = [] := by
    intro terms ht
    subst ht
    have hf : (data.cases.map (fun c => withScore c (scoreCase [] c))).filter
        (fun m => m.relevanceScore > 0) = [] := by
      rw [List.filter_eq_nil_iff]
      intro m hm
      obtain ⟨c, -, rfl⟩ := List.mem_map.mp hm
      simp [relevanceScore_withScore, scoreCase_nil]
    rw [hf]
    rfl
  cases query with
  | string q =>
    unfold findMatchingCases
    simp only [queryTerms]
    by_cases hq : (JSValue.string q).isFalsy = true
    · rw [if_pos hq]
      have : q = [] := by simpa [JSValue.isFalsy] using hq
      subst this
      exact (hnil _ (by decide)).symm
    · rw [if_neg hq]
      by_cases ht : (searchTerms q).length = 0
      · simp only [ht, if_true]
        exact (hnil _ (List.length_eq_zero.mp ht)).symm
      · simp only [ht, if_false]
  | undefined => exact (hnil _ rfl).symm
  | null => exact (hnil _ rfl).symm
  | boolean b => exact (hnil _ rfl).symm
  | number n => exact (hnil _ rfl).symm
  | object => exact (hnil _ rfl).symm

/-- The result of `findMatchingCases` with every match annotated by the corpus position
of its case. -/
theorem findMatchingCases_annotated (data : LegalCasesData) (query : JSValue) :
    ∃ P : List (Nat × ScoredCase),
      P.map Prod.snd = findMatchingCases data query ∧
      (∀ x ∈ P, ∃ c, data.cases[x.1]? = some c ∧
        x.2 = withScore c (scoreCase (queryTerms query) c)) ∧
      P.Pairwise precedes ∧
      (∀ i c, data.cases[i]? = some c → 0 < scoreCase (queryTerms query) c →
        i ∉ P.map Prod.fst →
        P.length = 5 ∧
          ∀ x ∈ P, precedes x (i, withScore c (scoreCase (queryTerms query) c))) := by
  obtain ⟨P, h1, h2, h3, h4⟩ :=
    rank_annotated (data.cases.map (fun c => withScore c (scoreCase (queryTerms query) c)))
  refine ⟨P, by rw [h1, findMatchingCases_eq], ?_, h3, ?_⟩
  · intro x hx
    have := h2 x hx
    rw [List.getElem?_map] at this
    cases hc : data.cases[x.1]? with
    | none => rw [hc] at this; simp at this
    | some c =>
      rw [hc] at this
      exact ⟨c, rfl, (Option.some.inj this).symm⟩
  · intro i c hic hpos hnot
    apply h4 i (withScore c (scoreCase (queryTerms query) c))
    · rw [List.getElem?_map, hic]; rfl
    · exact hpos
    · intro hmem
      exact hnot (List.mem_map.mpr ⟨_, hmem, rfl⟩)

/-- C2. The returned list is sorted non-increasing by `relevanceScore`, and the sort is
stable: the returned matches can be annotated with the corpus positions of their cases so
that of two matches with equal score the earlier one in the result has the smaller
corpus position. -/
theorem findMatchingCases_sorted_stable (data : LegalCasesData) (query : JSValue) :
    (findMatchingCases data query).Pairwise
        (fun a b => b.relevanceScore ≤ a.relevanceScore) ∧
      ∃ P : List (Nat × ScoredCase),
        P.map Prod.snd = findMatchingCases data query ∧
        (∀ x ∈ P, data.cases[x.1]? = some x.2.toLegalCase) ∧
        P.Pairwise (fun a b => a.2.relevanceScore = b.2.relevanceScore → a.1 < b.1) := by
  obtain ⟨P, h1, h2, h3, -⟩ := findMatchingCases_annotated data query
  refine ⟨?_, P, h1, ?_, ?_⟩
  · rw [← h1, List.pairwise_map]
    exact h3.imp (fun {a b} h => by unfold precedes at h; omega)
  · intro x hx
    obtain ⟨c, hc, hx2⟩ := h2 x hx
    rw [hx2, toLegalCase_withScore]; exact hc
  · exact h3.imp (fun {a b} h heq => by unfold precedes at h; omega)

/-- C3. Every returned match has a positive `relevanceScore`, and that score is the score
of the match's own case for the query's terms: a case whose score is 0 is the case of no
returned match. -/
theorem findMatchingCases_positive (data : LegalCasesData) (query : JSValue)
    (m : ScoredCase) (hm : m ∈ findMatchingCases data query) :
    0 < m.relevanceScore ∧
      m.relevanceScore = scoreCase (queryTerms query) m.toLegalCase ∧
      m.toLegalCase ∈ data.cases := by
  rw [findMatchingCases_eq] at hm
  have h1 := (sort_perm _ _).subset (List.mem_of_mem_take hm)
  obtain ⟨h2, h3⟩ := List.mem_filter.mp h1
  obtain ⟨c, hc, rfl⟩ := List.mem_map.mp h2
  refine ⟨by simpa using h3, rfl, hc⟩

/-- C3, example: the first match for "tax law" over the sample corpus is case 4 with
score 20. -/
theorem findMatchingCases_positive_witness :
    withScore (mkCase 4 "tax law" "" "") 20
        ∈ findMatchingCases sampleData (.string "tax law".toList) ∧
      (0 : Int) < 20 :=
  ⟨by decide,
   (findMatchingCases_positive sampleData (.string "tax law".toList)
      (withScore (mkCase 4 "tax law" "" "") 20) (by decide)).1⟩

/-- C4. The result has at most 5 entries; its length is the minimum of 5 and the number of
corpus cases whose score for the query's terms is positive. -/
theorem findMatchingCases_length (data : LegalCasesData) (query : JSValue) :
    (findMatchingCases data query).length ≤ 5 ∧
      (findMatchingCases data query).length
        = min 5 (data.cases.countP (fun c => 0 < scoreCase (queryTerms query) c)) := by
  have hlen : (findMatchingCases data query).length
      = min 5 (data.cases.countP (fun c => 0 < scoreCase (queryTerms query) c)) := by
    rw [findMatchingCases_eq, List.length_take, (sort_perm _ _).length_eq,
      ← List.countP_eq_length_filter, List.countP_map]
    rfl
  exact ⟨by rw [hlen]; exact min_le_left _ _, hlen⟩

/-- C8. Ranking is a pure function of the corpus and the query (the corpus is an argument
that the function only reads).  The returned matches can be annotated with pairwise
distinct corpus positions so that every match agrees with the case at its position on
`id`, `problem_statement`, `keywords`, `simulated_law` and `advocate_id`, and carries as
`relevanceScore` the score of that case for the query's terms. -/
theorem findMatchingCases_frame (data : LegalCasesData) (query : JSValue) :
    ∃ P : List (Nat × ScoredCase),
      P.map Prod.snd = findMatchingCases data query ∧
      (P.map Prod.fst).Nodup ∧
      ∀ x ∈ P, ∃ c, data.cases[x.1]? = some c ∧
        x.2.id = c.id ∧ x.2.problem_statement = c.problem_statement ∧
        x.2.keywords = c.keywords ∧ x.2.simulated_law = c.simulated_law ∧
        x.2.advocate_id = c.advocate_id ∧
        x.2.relevanceScore = scoreCase (queryTerms query) c := by
  obtain ⟨P, h1, h2, h3, -⟩ := findMatchingCases_annotated data query
  refine ⟨P, h1, ?_, ?_⟩
  · unfold List.Nodup
    rw [List.pairwise_map]
    refine (h3.imp_of_mem ?_)
    intro a b ha hb hab heq
    obtain ⟨ca, hca, ha2⟩ := h2 a ha
    obtain ⟨cb, hcb, hb2⟩ := h2 b hb
    rw [heq, hcb] at hca
    have hc : cb = ca := Option.some.inj hca
    subst hc
    unfold precedes at hab
    rw [ha2, hb2] at hab
    omega
  · intro x hx
    obtain ⟨c, hc, hx2⟩ := h2 x hx
    refine ⟨c, hc, ?_⟩
    rw [hx2]
    exact ⟨rfl, rfl, rfl, rfl, rfl, rfl⟩

/-- C10. The returned matches are the top ones.  With the matches annotated by the corpus
positions of their cases: whenever a corpus position holds a case with a positive score
and is not the position of a returned match, the result has exactly 5 entries, every
returned match has a `relevanceScore` at least that score, and every returned match that
ties with it (the last one in particular) sits at a smaller corpus position.  The same
bound holds for a case whose scored copy does not occur in the result at all. -/
theorem findMatchingCases_top (data : LegalCasesData) (query : JSValue) :
    (∃ P : List (Nat × ScoredCase),
      P.map Prod.snd = findMatchingCases data query ∧
      (∀ x ∈ P, data.cases[x.1]? = some x.2.toLegalCase) ∧
      ∀ i c, data.cases[i]? = some c → 0 < scoreCase (queryTerms query) c →
        i ∉ P.map Prod.fst →
        (findMatchingCases data query).length = 5 ∧
        (∀ m ∈ findMatchingCases data query,
          scoreCase (queryTerms query) c ≤ m.relevanceScore) ∧
        (∀ x ∈ P, x.2.relevanceScore = scoreCase (queryTerms query) c → x.1 < i) ∧
        (∀ x, P.getLast? = some x →
          x.2.relevanceScore = scoreCase (queryTerms query) c → x.1 < i)) ∧
    (∀ c ∈ data.cases, 0 < scoreCase (queryTerms query) c →
      withScore c (scoreCase (queryTerms query) c) ∉ findMatchingCases data query →
      (findMatchingCases data query).length = 5 ∧
        ∀ m ∈ findMatchingCases data query,
          scoreCase (queryTerms query) c ≤ m.relevanceScore) := by
  obtain ⟨P, h1, h2, -, h4⟩ := findMatchingCases_annotated data query
  have hlenP : P.length = (findMatchingCases data query).length := by
    rw [← h1, List.length_map]
  have key : ∀ i c, data.cases[i]? = some c → 0 < scoreCase (queryTerms query) c →
      i ∉ P.map Prod.fst →
      (findMatchingCases data query).length = 5 ∧
      (∀ m ∈ findMatchingCases data query,
        scoreCase (queryTerms query) c ≤ m.relevanceScore) ∧
      (∀ x ∈ P, x.2.relevanceScore = scoreCase (queryTerms query) c → x.1 < i) := by
    intro i c hic hpos hnot
    obtain ⟨h5, hprec⟩ := h4 i c hic hpos hnot
    refine ⟨by rw [← hlenP]; exact h5, ?_, ?_⟩
    · intro m hm
      rw [← h1] at hm
      obtain ⟨x, hx, rfl⟩ := List.mem_map.mp hm
      have := hprec x hx
      unfold precedes at this
      simp only [relevanceScore_withScore] at this
      omega
    · intro x hx heq
      have := hprec x hx
      unfold precedes at this
      simp only [relevanceScore_withScore] at this
      omega
  refine ⟨⟨P, h1, ?_, ?_⟩, ?_⟩
  · intro x hx
    obtain ⟨c, hc, hx2⟩ := h2 x hx
    rw [hx2, toLegalCase_withScore]; exact hc
  · intro i c hic hpos hnot
    obtain ⟨k1, k2, k3⟩ := key i c hic hpos hnot
    exact ⟨k1, k2, k3, fun x hx => k3 x (List.mem_of_getLast?_eq_some hx)⟩
  · intro c hc hpos hnot
    obtain ⟨i, hi⟩ := List.mem_iff_getElem?.mp hc
    have hnotP : i ∉ P.map Prod.fst := by
      intro hmem
      obtain ⟨x, hx, hxi⟩ := List.mem_map.mp hmem
      obtain ⟨c', hc', hx2⟩ := h2 x hx
      rw [hxi, hi] at hc'
      have hcc : c = c' := Option.some.inj hc'
      subst hcc
      apply hnot
      rw [← h1, ← hx2]
      exact List.mem_map.mpr ⟨x, hx, rfl⟩
    obtain ⟨k1, k2, -⟩ := key i c hi hpos hnotP
    exact ⟨k1, k2⟩

/-! ## The tokenizer -/

/-- Every character of every piece of a split is either already in the piece being read
or a character of the input that is not white space. -/
theorem splitGo_chars (s cur : JSString) :
    ∀ piece ∈ splitGo s cur, ∀ ch ∈ piece, ch ∈ cur ∨ (ch ∈ s ∧ isWhiteSpace ch = false) := by
  induction s generalizing cur with
  | nil =>
    intro piece hp ch hch
    simp only [splitGo, List.mem_singleton] at hp
    subst hp
    exact Or.inl (List.mem_reverse.mp hch)
  | cons c cs ih =>
    intro piece hp ch hch
    unfold splitGo at hp
    by_cases hc : isWhiteSpace c = true
    · rw [if_pos hc] at hp
      cases cs with
      | nil =>
        simp only [List.mem_cons, List.mem_singleton, List.not_mem_nil, or_false] at hp
        rcases hp with rfl | rfl
        · exact Or.inl (List.mem_reverse.mp hch)
        · simp at hch
      | cons d ds =>
        simp only at hp
        by_cases hd : isWhiteSpace d = true
        · rw [if_pos hd] at hp
          rcases ih cur piece hp ch hch with h | ⟨h1, h2⟩
          · exact Or.inl h
          · exact Or.inr ⟨List.mem_cons_of_mem _ h1, h2⟩
        · rw [if_neg hd] at hp
          rcases List.mem_cons.mp hp with rfl | hp'
          · exact Or.inl (List.mem_reverse.mp hch)
          · rcases ih [] piece hp' ch hch with h | ⟨h1, h2⟩
            · simp at h
            · exact Or.inr ⟨List.mem_cons_of_mem _ h1, h2⟩
    · rw [if_neg hc] at hp
      rcases ih (c :: cur) piece hp ch hch with h | ⟨h1, h2⟩
      · rcases List.mem_cons.mp h with rfl | h'
        · exact Or.inr ⟨List.mem_cons_self _ _, by simpa using hc⟩
        · exact Or.inl h'
      · exact Or.inr ⟨List.mem_cons_of_mem _ h1, h2⟩

theorem toNat_toLowerChar_of_upper (c : Char) (h : 65 ≤ c.toNat ∧ c.toNat ≤ 90) :
    (toLowerChar c).toNat = c.toNat + 32 := by
  unfold toLowerChar
  rw [if_pos h]
  obtain ⟨h1, h2⟩ := h
  generalize c.toNat = n at h1 h2
  interval_cases n <;> decide

/-- A lower-cased character is never one of `A`..`Z`. -/
theorem toLowerChar_not_upper (c : Char) :
    ¬ (65 ≤ (toLowerChar c).toNat ∧ (toLowerChar c).toNat ≤ 90) := by
  by_cases h : 65 ≤ c.toNat ∧ c.toNat ≤ 90
  · rw [toNat_toLowerChar_of_upper c h]; omega
  · unfold toLowerChar; rw [if_neg h]; exact h

/-- Lower-casing leaves every character that is not one of `A`..`Z` as it is. -/
theorem toLowerChar_of_not_upper (c : Char) (h : ¬ (65 ≤ c.toNat ∧ c.toNat ≤ 90)) :
    toLowerChar c = c := by
  unfold toLowerChar; rw [if_neg h]

theorem isWhiteSpace_not_upper (c : Char) (h : isWhiteSpace c = true) :
    ¬ (65 ≤ c.toNat ∧ c.toNat ≤ 90) := by
  unfold isWhiteSpace at h
  simp only [Bool.or_eq_true, Bool.and_eq_true, decide_eq_true_eq, beq_iff_eq] at h
  omega

theorem isTermChar_not_upper (c : Char) (h : isTermChar c = true) :
    ¬ (65 ≤ c.toNat ∧ c.toNat ≤ 90) := by
  unfold isTermChar at h
  simp only [Bool.or_eq_true, Bool.and_eq_true, decide_eq_true_eq, beq_iff_eq] at h
  omega

/-- What the tokenizer guarantees about every term: at least three characters, no white
space, and only the characters `a`..`z`, `0`..`9` and `_`. -/
theorem searchTerms_chars (query : JSString) :
    ∀ term ∈ searchTerms query,
      3 ≤ term.length ∧ ∀ ch ∈ term, isWhiteSpace ch = false ∧ isTermChar ch = true := by
  intro term ht
  unfold searchTerms at ht
  obtain ⟨hmem, hlen⟩ := List.mem_filter.mp ht
  refine ⟨by simpa using hlen, ?_⟩
  intro ch hch
  rcases splitGo_chars _ [] term hmem ch hch with h | ⟨h1, h2⟩
  · simp at h
  · refine ⟨h2, ?_⟩
    unfold stripPunctuation at h1
    obtain ⟨hin, hkeep⟩ := List.mem_filter.mp h1
    unfold toLowerCase at hin
    obtain ⟨c0, -, rfl⟩ := List.mem_map.mp hin
    have hnu := toLowerChar_not_upper c0
    rw [h2, Bool.or_false] at hkeep
    unfold isWordChar at hkeep
    unfold isTermChar
    simp only [Bool.or_eq_true, Bool.and_eq_true, decide_eq_true_eq, beq_iff_eq] at hkeep ⊢
    omega

/-- A term is its own lower-casing. -/
theorem toLowerCase_term (query term : JSString) (h : term ∈ searchTerms query) :
    toLowerCase term = term := by
  have hch := (searchTerms_chars query term h).2
  unfold toLowerCase
  conv_rhs => rw [← List.map_id term]
  apply List.map_congr_left
  intro ch hmem
  exact toLowerChar_of_not_upper ch (isTermChar_not_upper ch (hch ch hmem).2)

/-- A string of white space only has no term. -/
theorem searchTerms_whitespace (s : JSString) (h : ∀ c ∈ s, isWhiteSpace c = true) :
    searchTerms s = [] := by
  unfold searchTerms
  rw [List.filter_eq_nil_iff]
  intro piece hp
  have hempty : piece = [] := by
    rw [List.eq_nil_iff_forall_not_mem]
    intro ch hch
    rcases splitGo_chars _ [] piece hp ch hch with h' | ⟨h1, h2⟩
    · simp at h'
    · unfold stripPunctuation at h1
      have hin := (List.mem_filter.mp h1).1
      unfold toLowerCase at hin
      obtain ⟨c0, hc0, rfl⟩ := List.mem_map.mp hin
      have hws := h c0 hc0
      rw [toLowerChar_of_not_upper c0 (isWhiteSpace_not_upper c0 hws), hws] at h2
      exact Bool.noConfusion h2
  subst hempty
  simp

theorem findMatchingCases_of_terms_nil (data : LegalCasesData) (s : JSString)
    (h : searchTerms s = []) : findMatchingCases data (.string s) = [] := by
  unfold findMatchingCases
  simp only [h, List.length_nil, if_true, ite_self]

/-- C5. For every corpus, `findMatchingCases` returns the empty list for `null`, for
`undefined`, for every value that is not a string, for the empty string, for a string of
white space only, for a string all of whose pieces after lower-casing, stripping and
splitting have at most two characters, and in general for every string whose term sequence
is empty. -/
theorem findMatchingCases_degenerate (data : LegalCasesData) :
    findMatchingCases data .null = [] ∧
    findMatchingCases data .undefined = [] ∧
    (∀ query, (∀ s, query ≠ .string s) → findMatchingCases data query = []) ∧
    findMatchingCases data (.string []) = [] ∧
    (∀ s, (∀ c ∈ s, isWhiteSpace c = true) → findMatchingCases data (.string s) = []) ∧
    (∀ s, (∀ piece ∈ splitWhitespace (stripPunctuation (toLowerCase s)), piece.length ≤ 2) →
      findMatchingCases data (.string s) = []) ∧
    (∀ s, searchTerms s = [] → findMatchingCases data (.string s) = []) := by
  refine ⟨rfl, rfl, ?_, rfl, ?_, ?_, ?_⟩
  · intro query hq
    cases query with
    | string s => exact absurd rfl (hq s)
    | undefined => rfl
    | null => rfl
    | boolean b => rfl
    | number n => rfl
    | object => rfl
  · intro s hs
    exact findMatchingCases_of_terms_nil data s (searchTerms_whitespace s hs)
  · intro s hs
    apply findMatchingCases_of_terms_nil
    unfold searchTerms
    rw [List.filter_eq_nil_iff]
    intro piece hp
    have := hs piece hp
    simp only [gt_iff_lt, decide_eq_true_eq, not_lt]
    exact this
  · intro s hs
    exact findMatchingCases_of_terms_nil data s hs

/-- C5, examples: a number, a white-space string and a string of short words give the
empty list over the sample corpus. -/
theorem findMatchingCases_degenerate_witness :
    findMatchingCases sampleData (.number 7) = [] ∧
    findMatchingCases sampleData (.string " \t ".toList) = [] ∧
    findMatchingCases sampleData (.string "a.b, to be or no!".toList) = [] ∧
    searchTerms "a.b, to be or no!".toList = [] :=
  ⟨(findMatchingCases_degenerate sampleData).2.2.1 (.number 7) (by intro s h; cases h),
   (findMatchingCases_degenerate sampleData).2.2.2.2.1 " \t ".toList (by decide),
   (findMatchingCases_degenerate sampleData).2.2.2.2.2.1 "a.b, to be or no!".toList (by decide),
   by decide⟩

/-- C6, at the failing input: the underscore is a word character of `\w`, so the
punctuation strip keeps it; the punctuation-only query `___` yields the term `___`, and
`a_b` yields a term with a character that is neither a letter nor a digit. -/
theorem searchTerms_keeps_underscore :
    searchTerms "___".toList = ["___".toList] ∧
    searchTerms "a_b".toList = ["a_b".toList] ∧
    isAlphanumeric '_' = false ∧ isWhiteSpace '_' = false := by
  decide

/-! ## Keyword matches dominate -/

/-- The method `includes` decides contiguous containment. -/
theorem includes_iff_contained (s t : JSString) : includes s t = true ↔ t <:+: s := by
  unfold includes
  rw [List.any_eq_true, List.infix_iff_prefix_suffix]
  constructor
  · rintro ⟨u, hu, hp⟩
    exact ⟨u, List.isPrefixOf_iff_prefix.mp hp, (List.mem_tails u s).mp hu⟩
  · rintro ⟨u, hp, hu⟩
    exact ⟨u, (List.mem_tails u s).mpr hu, List.isPrefixOf_iff_prefix.mpr hp⟩

/-- Containment survives lower-casing both strings. -/
theorem includes_toLowerCase (s t : JSString) (h : includes s t = true) :
    includes (toLowerCase s) (toLowerCase t) = true := by
  rw [includes_iff_contained] at h ⊢
  exact List.IsInfix.map toLowerChar h

/-- C7. Keyword matches dominate: let cases A and B have the same problem statement and the
same law explanation.  If some keyword of A contains some term (the lower-cased keyword
contains it, or the keyword as written contains a term that is in lower case, as every
tokenized term is) while no keyword of B matches any term in either direction, then A
scores strictly more than B, whatever B gains from its law explanation. -/
theorem keyword_match_dominates (terms : List JSString) (A B : LegalCase)
    (hproblem : A.problem_statement = B.problem_statement)
    (hlaw : A.simulated_law.explanation = B.simulated_law.explanation)
    (hA : ∃ k ∈ A.keywords, ∃ t ∈ terms,
      includes (toLowerCase k) t = true ∨ (includes k t = true ∧ toLowerCase t = t))
    (hB : ∀ k ∈ B.keywords, ∀ t ∈ terms,
      includes (toLowerCase k) t = false ∧ includes t (toLowerCase k) = false) :
    scoreCase terms B < scoreCase terms A := by
  rw [scoreCase_eq_specScore, scoreCase_eq_specScore]
  unfold specScore
  have hp : problemTermCount terms A = problemTermCount terms B := by
    unfold problemTermCount; rw [hproblem]
  have hl : lawTermCount terms A = lawTermCount terms B := by
    unfold lawTermCount; rw [hlaw]
  have hkB : keywordPairCount terms B = 0 := by
    unfold keywordPairCount
    rw [List.countP_eq_zero]
    rintro ⟨k, t⟩ hmem
    obtain ⟨hk, ht⟩ := List.mem_product.mp hmem
    obtain ⟨h1, h2⟩ := hB k hk t ht
    simp [keywordMatch, h1, h2]
  have hkA : 0 < keywordPairCount terms A := by
    unfold keywordPairCount
    rw [List.countP_pos_iff]
    obtain ⟨k, hk, t, ht, hkt⟩ := hA
    refine ⟨(k, t), List.mem_product.mpr ⟨hk, ht⟩, ?_⟩
    have hinc : includes (toLowerCase k) t = true := by
      rcases hkt with h | ⟨h, hfix⟩
      · exact h
      · have := includes_toLowerCase k t h
        rwa [hfix] at this
    simp [keywordMatch, hinc]
  rw [hp, hl, hkB]
  have : (0 : Int) < (keywordPairCount terms A : Int) := by exact_mod_cast hkA
  push_cast
  omega

/-- C7, example: with the terms of "tax law", a case with keyword "Tax" outscores the case
that differs only in its keyword "zzz"; both mention "law" in the law explanation. -/
theorem keyword_match_dominates_witness :
    scoreCase (searchTerms "tax law".toList) (mkCase 2 "zzz" "" "the law")
        < scoreCase (searchTerms "tax law".toList) (mkCase 1 "Tax" "" "the law") ∧
      scoreCase (searchTerms "tax law".toList) (mkCase 2 "zzz" "" "the law") = 2 ∧
      scoreCase (searchTerms "tax law".toList) (mkCase 1 "Tax" "" "the law") = 12 :=
  ⟨keyword_match_dominates (searchTerms "tax law".toList)
      (mkCase 1 "Tax" "" "the law") (mkCase 2 "zzz" "" "the law") rfl rfl
      ⟨"Tax".toList, by decide, "tax".toList, by decide, Or.inl (by decide)⟩
      (by decide),
   by decide, by decide⟩

/-! ## Advocate lookup -/

theorem strictEqualsString_iff (s : JSString) (v : JSValue) :
    strictEqualsString s v = true ↔ JSValue.string s = v := by
  cases v <;> simp [strictEqualsString]

/-- C9. The lookup `getAdvocateById` is a total function: it returns an advocate exactly
when that advocate is the first one of the collection whose id is the given value, and it
returns the absent value exactly when no advocate has that id; for a string id the
advocate-detail route answers 404 exactly in the absent case. -/
theorem getAdvocateById_first_or_absent (data : LegalCasesData) (advocateId : JSValue) :
    (∀ a, getAdvocateById data advocateId = some a ↔
      ∃ before after, data.advocates = before ++ a :: after ∧
        JSValue.string a.id = advocateId ∧
        ∀ b ∈ before, JSValue.string b.id ≠ advocateId) ∧
    (getAdvocateById data advocateId = none ↔
      ∀ a ∈ data.advocates, JSValue.string a.id ≠ advocateId) ∧
    (∀ s, advocateId = JSValue.string s →
      ((advocateDetailRoute data s).status = 404 ↔
        getAdvocateById data advocateId = none)) := by
  refine ⟨?_, ?_, ?_⟩
  · intro a
    unfold getAdvocateById
    rw [List.find?_eq_some]
    constructor
    · rintro ⟨hp, before, after, heq, hb⟩
      refine ⟨before, after, heq, (strictEqualsString_iff _ _).mp hp, ?_⟩
      intro b hbm hcontra
      have := hb b hbm
      rw [(strictEqualsString_iff _ _).mpr hcontra] at this
      exact Bool.noConfusion this
    · rintro ⟨before, after, heq, hid, hb⟩
      refine ⟨(strictEqualsString_iff _ _).mpr hid, before, after, heq, ?_⟩
      intro b hbm
      have hne := hb b hbm
      cases hse : strictEqualsString b.id advocateId with
      | false => rfl
      | true => exact absurd ((strictEqualsString_iff _ _).mp hse) hne
  · unfold getAdvocateById
    rw [List.find?_eq_none]
    constructor
    · intro h a ha hcontra
      exact h a ha ((strictEqualsString_iff _ _).mpr hcontra)
    · intro h a ha hcontra
      exact h a ha ((strictEqualsString_iff _ _).mp hcontra)
  · intro s hs
    subst hs
    unfold advocateDetailRoute
    cases hget : getAdvocateById data (JSValue.string s) with
    | none => simp
    | some a => simp

/-- C9, examples over the sample corpus: "adv_002" is found, "nonexistent" is absent and
the route answers 404. -/
theorem getAdvocateById_first_or_absent_witness :
    (getAdvocateById sampleData (.string "adv_002".toList)).map (fun a => a.name)
        = some "Bo".toList ∧
      getAdvocateById sampleData (.string "nonexistent".toList) = none ∧
      (advocateDetailRoute sampleData "nonexistent".toList).status = 404 ∧
      (advocateDetailRoute sampleData "adv_001".toList).status = 200 :=
  ⟨by decide, by decide,
   ((getAdvocateById_first_or_absent sampleData (.string "nonexistent".toList)).2.2
      "nonexistent".toList rfl).mpr (by decide),
   by decide⟩

/-! ## The sample corpus, evaluated -/

/-- The ranking of the sample corpus for "tax law": case 4 (score 20) first, then the
cases with score 10 in corpus order 1, 2, 6, 7; case 9 (score 10) is cut off, and so are
cases 3 and 5 (scores 5 and 2); case 8 (score 0) is filtered out. -/
theorem findMatchingCases_sample :
    (findMatchingCases sampleData (.string "tax law".toList)).map
        (fun m => (m.id, m.relevanceScore))
      = [(4, 20), (1, 10), (2, 10), (6, 10), (7, 10)] := by
  decide

/-- The scores of the nine sample cases for "tax law". -/
theorem scoreCase_sample :
    sampleData.cases.map (fun c => scoreCase (searchTerms "tax law".toList) c)
      = [10, 10, 5, 20, 2, 10, 10, 0, 10] := by
  decide

/-- C2, example: over the sample corpus the scores of the result do not increase. -/
theorem findMatchingCases_sorted_stable_witness :
    (findMatchingCases sampleData (.string "tax law".toList)).Pairwise
      (fun a b => b.relevanceScore ≤ a.relevanceScore) :=
  (findMatchingCases_sorted_stable sampleData (.string "tax law".toList)).1

/-- C4, example: eight sample cases score above 0 for "tax law" and five are returned. -/
theorem findMatchingCases_length_witness :
    (findMatchingCases sampleData (.string "tax law".toList)).length = 5 ∧
      sampleData.cases.countP
        (fun c => 0 < scoreCase (queryTerms (.string "tax law".toList)) c) = 8 := by
  refine ⟨?_, by decide⟩
  rw [(findMatchingCases_length sampleData (.string "tax law".toList)).2]
  decide

/-- C8, example: the annotation exists for the ranking of the sample corpus. -/
theorem findMatchingCases_frame_witness :
    ∃ P : List (Nat × ScoredCase),
      P.map Prod.snd = findMatchingCases sampleData (.string "tax law".toList) ∧
      (P.map Prod.fst).Nodup ∧
      ∀ x ∈ P, ∃ c, sampleData.cases[x.1]? = some c ∧
        x.2.id = c.id ∧ x.2.problem_statement = c.problem_statement ∧
        x.2.keywords = c.keywords ∧ x.2.simulated_law = c.simulated_law ∧
        x.2.advocate_id = c.advocate_id ∧
        x.2.relevanceScore = scoreCase (queryTerms (.string "tax law".toList)) c :=
  findMatchingCases_frame sampleData (.string "tax law".toList)

/-- C10, example: sample case 9 scores 10 and is not returned; the result has 5 entries
and each of them scores at least as much. -/
theorem findMatchingCases_top_witness :
    withScore (mkCase 9 "law" "" "") 10
        ∉ findMatchingCases sampleData (.string "tax law".toList) ∧
      (findMatchingCases sampleData (.string "tax law".toList)).length = 5 ∧
      ∀ m ∈ findMatchingCases sampleData (.string "tax law".toList),
        scoreCase (queryTerms (.string "tax law".toList)) (mkCase 9 "law" "" "")
          ≤ m.relevanceScore :=
  ⟨by decide,
   (findMatchingCases_top sampleData (.string "tax law".toList)).2
      (mkCase 9 "law" "" "") (by decide) (by decide) (by decide)⟩

end LegalEase
